import Mathlib

/-!
Verification development for the fluent-async-iterator library
(src/fluent-async-iterator.ts).  The asynchronous iterator combinators are
embedded as pure Lean functions over lists: an async iterable is modelled by
the list of elements it produces, and the bounded-concurrency executor is
modelled by an instrumented state machine whose race outcomes are chosen by
an abstract schedule.
-/

namespace FluentAsync

/-- Dynamic JavaScript-like value, covering the shapes this library moves
through its pipelines: undefined, numbers (integral, the only kind the
repository exercises), strings, arrays, and plain objects. -/
inductive JVal where
  | undefinedJ
  | num (n : Int)
  | str (s : String)
  | arr (elems : List JVal)
  | obj (fields : List (String × JVal))

/-- Accumulate a run of decimal digit characters into a number; any
non-digit character makes the whole string non-numeric. -/
def decDigits (acc : Nat) : List Char → Option Nat
  | [] => some acc
  | c :: cs => if c.isDigit then decDigits (acc * 10 + (c.toNat - 48)) cs else none

/-- Model of JavaScript ToNumber on strings for the cases this repository
can exercise: the empty string is 0, decimal digit strings with an optional
leading minus are their value, and every other string is NaN (modelled as
none, which never compares loosely equal to a number). -/
def jsToNumber (s : String) : Option Int :=
  match s.data with
  | [] => some 0
  | '-' :: cs =>
      if cs.isEmpty then none
      else (decDigits 0 cs).map (fun n => -(n : Int))
  | cs => (decDigits 0 cs).map (fun n => (n : Int))

/-- Model of the JavaScript loose equality operator == on the value shapes
above: equal-type primitives compare by value, a number and a string compare
by converting the string with ToNumber, and comparisons involving arrays or
objects (reference equality in JavaScript) are modelled as false for
distinct values, which is all the group operator can observe. -/
def looseEq : JVal → JVal → Bool
  | .undefinedJ, .undefinedJ => true
  | .num a, .num b => a == b
  | .str a, .str b => a == b
  | .num a, .str s =>
      match jsToNumber s with
      | some b => a == b
      | none => false
  | .str s, .num b =>
      match jsToNumber s with
      | some a => a == b
      | none => false
  | _, _ => false

/-- Model of the JavaScript property access item[key]: the first field with
that name on an object, undefined otherwise. -/
def jsGet (v : JVal) (k : String) : JVal :=
  match v with
  | .obj fields => ((fields.find? (fun f => f.1 == k)).map (fun f => f.2)).getD .undefinedJ
  | _ => .undefinedJ

/-- Embedding of groupIterator's accumulation loop: key and members are the
mutable currentGroup record, and the comparison currentGroup.key ==
item[groupBy] is the JavaScript loose equality, modelled by looseEq.  The
trailing group is always yielded because the loop is only entered with a
currentGroup present. -/
def groupGo (getKey : α → JVal) (key : JVal) (members : List α) : List α → List (JVal × List α)
  | [] => [(key, members)]
  | x :: xs =>
      if looseEq key (getKey x) then groupGo getKey key (members ++ [x]) xs
      else (key, members) :: groupGo getKey (getKey x) [x] xs

/-- Embedding of groupIterator over object elements: the first element seeds
currentGroup with key item[groupBy], and each group record is the pair of
the key value that seeded it and its member list. -/
def groupIterator (groupBy : String) : List JVal → List (JVal × List JVal)
  | [] => []
  | x :: xs => groupGo (fun v => jsGet v groupBy) (jsGet x groupBy) [x] xs

/-- Embedding of splitIterator's loop: currentSplit is the accumulated
segment; an element satisfying the predicate is dropped, the current
segment (possibly empty) is yielded and accumulation restarts; at
exhaustion the trailing segment is yielded only when non-empty. -/
def splitGo (p : α → Bool) (currentSplit : List α) : List α → List (List α)
  | [] => if currentSplit.length > 0 then [currentSplit] else []
  | x :: xs =>
      if p x then currentSplit :: splitGo p [] xs
      else splitGo p (currentSplit ++ [x]) xs

/-- Embedding of splitIterator, which starts from an empty segment. -/
def splitIterator (p : α → Bool) (source : List α) : List (List α) :=
  splitGo p [] source

/-- Embedding of batchIterator's loop: push the item, and flush exactly when
the batch reaches the configured size; flush a trailing non-empty batch at
exhaustion. -/
def batchGo (size : Nat) (batch : List α) : List α → List (List α)
  | [] => if batch.length > 0 then [batch] else []
  | x :: xs =>
      let b := batch ++ [x]
      if b.length = size then b :: batchGo size [] xs
      else batchGo size b xs

/-- Embedding of batchIterator, which starts from an empty batch. -/
def batchIterator (size : Nat) (source : List α) : List (List α) :=
  batchGo size [] source

/-- Embedding of limitIterator over a shared upstream generator handle.  The
handle is modelled by the list of elements it has not produced yet; the
result is the pair of the elements limitIterator yields and the state the
shared handle is left in.  The while loop performs no pull at all once
count iterations have run, so the remainder of the upstream stays
available to whoever holds the handle next. -/
def limitIterator : Nat → List α → List α × List α
  | 0, rest => ([], rest)
  | _ + 1, [] => ([], [])
  | n + 1, x :: xs =>
      let r := limitIterator n xs
      (x :: r.1, r.2)

/-- Events observed during a run of the bounded-concurrency executor
(instrumentation in the sense of the spec's enter/exit counters): pulling
the next input (for concurrentMapIterator a pull on the upstream sequence,
for concurrentIterator taking the next promise from the collection),
submitting an operation into a slot, observing a completion through a
race, delivering a result to the consumer, and propagating a rejection. -/
inductive Ev where
  | pull (idx : Nat)
  | submit (idx slot : Nat)
  | complete (idx slot : Nat)
  | yld
  | fail
deriving DecidableEq, Repr

/-- One entry of the concurrency pool object: the slot id the promise is
keyed under, the index of the input it was submitted for, and the outcome
the promise settles with (err for a rejection). -/
structure PoolEntry (U : Type) where
  slot : Nat
  idx : Nat
  result : Except String U
deriving Repr

/-- State of the executor.  slots is the free-slot stack (head is the top,
i.e. the end of the JavaScript array that pop and push operate on), pool is
the JavaScript object mapping slot ids to in-flight promises.  The
remaining fields are instrumentation: flight lists (input index, slot) for
every submitted operation whose completion has not yet been observed, outs
the results delivered to the consumer so far, evs the event log, snaps a
snapshot of (free-slot stack, pool key set) at each yield suspension, and
stuck marks the unreachable slot-underflow branch of slots.pop()!. -/
structure ExecSt (U : Type) where
  slots : List Nat
  pool : List (PoolEntry U)
  flight : List (Nat × Nat)
  outs : List U
  evs : List Ev
  snaps : List (List Nat × List Nat)
  stuck : Bool

/-- Abstraction of Promise.race over the changing pool: a schedule chooses,
from the current pool contents, which entry settles first.  Quantifying the
theorems over every schedule covers every completion order the underlying
promises can exhibit. -/
def Sched (U : Type) : Type := List (PoolEntry U) → Nat

/-- The entry Promise.race settles with, chosen by the schedule; the modulo
keeps every schedule a valid choice over the non-empty pool p :: ps. -/
def racePick (σ : Sched U) (p : PoolEntry U) (ps : List (PoolEntry U)) : PoolEntry U :=
  (p :: ps).getD (σ (p :: ps) % (ps.length + 1)) p

/-- JavaScript object update pool[slot] = entry: overwrite the entry at that
key when it exists, add it otherwise. -/
def poolSet (pool : List (PoolEntry U)) (e : PoolEntry U) : List (PoolEntry U) :=
  if pool.any (fun q => q.slot == e.slot) then
    pool.map (fun q => if q.slot == e.slot then e else q)
  else pool ++ [e]

/-- Embedding of racingDrain: race the remaining pool entries, yield each
completion, and delete it from the pool, until the pool is empty; a
rejection propagates out of the await before anything is yielded or
deleted.  The yield suspension happens before the delete, so the snapshot
taken there still contains the completed entry.  fuel bounds the
recursion; any value at least pool.length is enough, and the executor
calls it with exactly pool.length. -/
def racingDrain (σ : Sched U) : Nat → ExecSt U → ExecSt U × Option String
  | 0, st => (st, none)
  | fuel + 1, st =>
      match st.pool with
      | [] => (st, none)
      | p :: ps =>
          let w := racePick σ p ps
          match w.result with
          | .error e =>
              ({ st with flight := st.flight.filter (fun q => q.1 != w.idx),
                         evs := st.evs ++ [.complete w.idx w.slot, .fail] }, some e)
          | .ok u =>
              racingDrain σ fuel
                { st with pool := (p :: ps).filter (fun q => q.slot != w.slot),
                          flight := st.flight.filter (fun q => q.1 != w.idx),
                          outs := st.outs ++ [u],
                          evs := st.evs ++ [.complete w.idx w.slot, .yld],
                          snaps := st.snaps ++ [(st.slots, (p :: ps).map (fun q => q.slot))] }

/-- Embedding of the submission loop shared verbatim by
concurrentMapIterator and concurrentIterator.  rs lists the settled outcome
of each operation in input order (for concurrentMapIterator the outcome of
func on each pulled item, for concurrentIterator the outcome of each
promise in the collection) and idx is the index of the next input.  Each
iteration pulls one input, pops a free slot, stores the operation's promise
under that slot, and, exactly when the free-slot stack has emptied, yields
the race of the whole pool: the race winner's slot is pushed back and its
result delivered, but its pool entry is not deleted.  A rejection
propagates out of the yielded race without pushing the slot back.  On
exhaustion the remaining pool is drained.  The slot-underflow branch marks
stuck instead of modelling slots.pop() returning undefined; it is proved
unreachable for every concurrency bound at least 1. -/
def concurrentLoop (σ : Sched U) : List (Except String U) → Nat → ExecSt U → ExecSt U × Option String
  | [], _, st => racingDrain σ st.pool.length st
  | r :: rest, idx, st =>
      match st.slots with
      | [] => ({ st with evs := st.evs ++ [.pull idx], stuck := true }, none)
      | s :: slotsRest =>
          let st1 : ExecSt U :=
            { st with slots := slotsRest,
                      pool := poolSet st.pool ⟨s, idx, r⟩,
                      flight := st.flight ++ [(idx, s)],
                      evs := st.evs ++ [.pull idx, .submit idx s] }
          match slotsRest with
          | _ :: _ => concurrentLoop σ rest (idx + 1) st1
          | [] =>
              match st1.pool with
              | [] => ({ st1 with stuck := true }, none)
              | p :: ps =>
                  let w := racePick σ p ps
                  match w.result with
                  | .error e =>
                      ({ st1 with flight := st1.flight.filter (fun q => q.1 != w.idx),
                                  evs := st1.evs ++ [.complete w.idx w.slot, .fail] }, some e)
                  | .ok u =>
                      concurrentLoop σ rest (idx + 1)
                        { st1 with slots := [w.slot],
                                   flight := st1.flight.filter (fun q => q.1 != w.idx),
                                   outs := st1.outs ++ [u],
                                   evs := st1.evs ++ [.complete w.idx w.slot, .yld],
                                   snaps := st1.snaps ++ [([w.slot], (p :: ps).map (fun q => q.slot))] }

/-- The executor state before anything has run. -/
def emptyExecSt (U : Type) : ExecSt U := ⟨[], [], [], [], [], [], false⟩

/-- Embedding of the executor entry: const slots = [...Array(count).keys()]
followed by the slots.length < 1 check.  Array(count) itself throws a
RangeError for a negative count before the custom check can run, so a
negative bound surfaces the RangeError message instead; count = 0 reaches
the custom Invalid concurrency count error.  Both failures happen before
any input is pulled, any operation is submitted, or anything is yielded.
The initial stack [...Array(count).keys()] is popped from the end, so its
top (the list head here) is count - 1. -/
def concurrentRun (σ : Sched U) (count : Int) (rs : List (Except String U)) : ExecSt U × Option String :=
  if count < 0 then (emptyExecSt U, some "Invalid array length")
  else
    let slots := (List.range count.toNat).reverse
    if slots.length < 1 then (emptyExecSt U, some "Invalid concurrency count")
    else concurrentLoop σ rs 0 { emptyExecSt U with slots := slots }

/-- Embedding of concurrentMapIterator: func is applied to each pulled item
at submission time, so the settled outcomes are func over the source in
order. -/
def concurrentMapIterator (σ : Sched U) (source : List T) (func : T → Except String U) (count : Int) : ExecSt U × Option String :=
  concurrentRun σ count (source.map func)

/-- Embedding of concurrentIterator: the collection already holds the
pending promises, listed here by their settled outcomes in collection
order. -/
def concurrentIterator (σ : Sched U) (source : List (Except String U)) (count : Int) : ExecSt U × Option String :=
  concurrentRun σ count source

/-- Number of pull events (inputs pulled or promises taken from the
collection) in an event log. -/
def pullCount (l : List Ev) : Nat :=
  (l.filter (fun e => match e with | .pull _ => true | _ => false)).length

/-- Number of results delivered to the consumer in an event log. -/
def yldCount (l : List Ev) : Nat :=
  (l.filter (fun e => match e with | .yld => true | _ => false)).length

/-- Replay one event against the set of in-flight (index, slot) pairs. -/
def flightStep (fl : List (Nat × Nat)) : Ev → List (Nat × Nat)
  | .submit idx slot => fl ++ [(idx, slot)]
  | .complete idx _ => fl.filter (fun q => q.1 != idx)
  | _ => fl

/-- The operations in flight after a given event log: submitted, with the
completion not yet observed. -/
def flightOf (l : List Ev) : List (Nat × Nat) :=
  l.foldl flightStep []

/-- Indices of the inputs submitted in an event log, in submission order. -/
def submitIdxs (l : List Ev) : List Nat :=
  l.filterMap (fun e => match e with | .submit i _ => some i | _ => none)

/-- The list p is an initial segment of the list l. -/
def starts (p l : List α) : Prop := ∃ t, p ++ t = l

/-- Deep embedding of one chainable operator of the fluent builder, with
the per-call configuration each method takes.  concurrentMap also carries
the schedule resolving its races, since its output depends on completion
order. -/
inductive POp where
  | map (f : JVal → JVal)
  | filter (p : JVal → Bool)
  | batch (size : Nat)
  | group (key : String)
  | peek (f : JVal → JVal)
  | split (p : JVal → Bool)
  | limit (count : Nat)
  | interval (ms : Nat)
  | concurrentMap (f : JVal → JVal) (count : Int) (σ : Sched JVal)

/-- What one operator stage produces over a fully materialised upstream:
the list semantics of each iterator function.  peek forwards elements
unchanged (its side effect is outside the stream), interval only delays
(time is not modelled), and concurrentMap's output is whatever the
executor embedding yields. -/
def POp.denote : POp → List JVal → List JVal
  | .map f, xs => xs.map f
  | .filter p, xs => xs.filter p
  | .batch size, xs => (batchIterator size xs).map JVal.arr
  | .group key, xs =>
      (groupIterator key xs).map (fun g => JVal.obj [("key", g.1), ("group", JVal.arr g.2)])
  | .peek _, xs => xs
  | .split p, xs => (splitIterator p xs).map JVal.arr
  | .limit count, xs => (limitIterator count xs).1
  | .interval _, xs => xs
  | .concurrentMap f count σ, xs =>
      (concurrentRun σ count (xs.map (fun x => Except.ok (f x)))).1.outs

/-- An upstream generator handle: the items it has not produced yet and how
many productions have already run on it. -/
structure Src where
  items : List JVal
  pulled : Nat

/-- The fluent wrapper: it holds the source handle it was built over and
the chain of operator stages layered on top.  Each chaining method calls
an async generator function, and calling an async generator function runs
none of its body, so the method only records the stage. -/
structure FluentIter where
  source : Src
  ops : List POp

/-- Embedding of the iterator entry point: wrap a source, run nothing. -/
def iterator (source : Src) : FluentIter := ⟨source, []⟩

/-- Embedding of FluentAsyncIterator.map. -/
def FluentIter.map (m : FluentIter) (f : JVal → JVal) : FluentIter :=
  ⟨m.source, m.ops ++ [.map f]⟩

/-- Embedding of FluentAsyncIterator.filter. -/
def FluentIter.filter (m : FluentIter) (p : JVal → Bool) : FluentIter :=
  ⟨m.source, m.ops ++ [.filter p]⟩

/-- Embedding of FluentAsyncIterator.batch. -/
def FluentIter.batch (m : FluentIter) (size : Nat) : FluentIter :=
  ⟨m.source, m.ops ++ [.batch size]⟩

/-- Embedding of FluentAsyncIterator.group. -/
def FluentIter.group (m : FluentIter) (key : String) : FluentIter :=
  ⟨m.source, m.ops ++ [.group key]⟩

/-- Embedding of FluentAsyncIterator.peek. -/
def FluentIter.peek (m : FluentIter) (f : JVal → JVal) : FluentIter :=
  ⟨m.source, m.ops ++ [.peek f]⟩

/-- Embedding of FluentAsyncIterator.split. -/
def FluentIter.split (m : FluentIter) (p : JVal → Bool) : FluentIter :=
  ⟨m.source, m.ops ++ [.split p]⟩

/-- Embedding of FluentAsyncIterator.limit. -/
def FluentIter.limit (m : FluentIter) (count : Nat) : FluentIter :=
  ⟨m.source, m.ops ++ [.limit count]⟩

/-- Embedding of FluentAsyncIterator.interval. -/
def FluentIter.interval (m : FluentIter) (ms : Nat) : FluentIter :=
  ⟨m.source, m.ops ++ [.interval ms]⟩

/-- Embedding of FluentAsyncIterator.concurrentMap. -/
def FluentIter.concurrentMap (m : FluentIter) (f : JVal → JVal) (count : Int) (σ : Sched JVal) : FluentIter :=
  ⟨m.source, m.ops ++ [.concurrentMap f count σ]⟩

/-- Embedding of the terminal collect: only here does the pipeline run, by
evaluating the stages bottom-up over the source's items. -/
def FluentIter.collect (m : FluentIter) : List JVal :=
  m.ops.foldl (fun xs op => op.denote xs) m.source.items

/-- Dispatch one recorded chaining call to the corresponding method. -/
def applyCall (m : FluentIter) : POp → FluentIter
  | .map f => m.map f
  | .filter p => m.filter p
  | .batch size => m.batch size
  | .group key => m.group key
  | .peek f => m.peek f
  | .split p => m.split p
  | .limit count => m.limit count
  | .interval ms => m.interval ms
  | .concurrentMap f count σ => m.concurrentMap f count σ

/-- Run a whole chain of method calls, left to right, as written in a
fluent expression. -/
def applyCalls (m : FluentIter) : List POp → FluentIter
  | [] => m
  | c :: cs => applyCalls (applyCall m c) cs

/-- The per-instant safety properties of an executor event log: at most N
operations in flight, no slot bound to two in-flight operations, input
pulled only while a slot is free, and never more than N inputs pulled ahead
of the results delivered. -/
def EvOK (N : Nat) (p : List Ev) : Prop :=
  (flightOf p).length ≤ N ∧
  ((flightOf p).map (fun q => q.2)).Nodup ∧
  (∀ q j, p = q ++ [Ev.pull j] → (flightOf q).length < N) ∧
  pullCount p ≤ yldCount p + N

/-- Contribution of one event to the pull count. -/
def pullTick : Ev → Nat
  | .pull _ => 1
  | _ => 0

/-- Contribution of one event to the delivered-result count. -/
def yldTick : Ev → Nat
  | .yld => 1
  | _ => 0

/-- Contribution of one event to the submitted-index list. -/
def submitTick : Ev → List Nat
  | .submit i _ => [i]
  | _ => []

/-- Invariant of the executor's submission loop, at the top of each
iteration, relating the state to the full outcome list rs and the index
idx of the next input.  Besides the structural facts about slots, pool and
flight, it carries the event-log instrumentation facts the final theorems
read off. -/
structure LoopInv (N : Nat) (rs : List (Except String U)) (idx : Nat) (st : ExecSt U) : Prop where
  slots_ne : st.slots ≠ []
  perm : (st.slots ++ st.flight.map (fun q => q.2)).Perm (List.range N)
  flight_lt : ∀ q ∈ st.flight, q.1 < idx
  flight_nodup : (st.flight.map (fun q => q.1)).Nodup
  keys_nodup : (st.pool.map (fun e => e.slot)).Nodup
  pool_rs : ∀ e ∈ st.pool, rs.get? e.idx = some e.result
  pool_flight : ∀ e ∈ st.pool,
    (e.idx, e.slot) ∈ st.flight ∨ (e.slot ∈ st.slots ∧ ∃ u, e.result = Except.ok u)
  flight_pool : ∀ q ∈ st.flight, ∃ e ∈ st.pool, e.idx = q.1 ∧ e.slot = q.2
  replay : flightOf st.evs = st.flight
  counts : pullCount st.evs = yldCount st.evs + st.flight.length
  evok : ∀ p, starts p st.evs → EvOK N p
  sub_nodup : (submitIdxs st.evs).Nodup
  sub_lt : ∀ i ∈ submitIdxs st.evs, i < idx
  not_stuck : st.stuck = false

/-- Invariant of the drain phase: what racingDrain needs and preserves. -/
structure DrainInv (N : Nat) (rs : List (Except String U)) (st : ExecSt U) : Prop where
  keys_nodup : (st.pool.map (fun e => e.slot)).Nodup
  pool_rs : ∀ e ∈ st.pool, rs.get? e.idx = some e.result
  flight_pool : ∀ q ∈ st.flight, ∃ e ∈ st.pool, e.idx = q.1 ∧ e.slot = q.2
  replay : flightOf st.evs = st.flight
  evok : ∀ p, starts p st.evs → EvOK N p
  sub_nodup : (submitIdxs st.evs).Nodup
  not_stuck : st.stuck = false

/-- What holds of the final state and result of an executor run: the
per-instant event-log safety properties, no input submitted twice, every
failure is the rejection of a submitted operation surfaced right after the
race completion that observed it, and the operations still in flight at
the end all still sit in the pool. -/
structure RunPost (N : Nat) (rs : List (Except String U)) (st : ExecSt U) (res : Option String) : Prop where
  evok : ∀ p, starts p st.evs → EvOK N p
  sub_nodup : (submitIdxs st.evs).Nodup
  err_shape : ∀ e, res = some e →
    ∃ j s q, st.evs = q ++ [Ev.complete j s, Ev.fail] ∧ rs.get? j = some (Except.error e)
  flight_pool : ∀ q ∈ st.flight, ∃ w ∈ st.pool, w.idx = q.1 ∧ w.slot = q.2
  not_stuck : st.stuck = false

theorem limit_take_drop (count : Nat) (src : List α) :
    limitIterator count src = (src.take count, src.drop count) := by
  induction count generalizing src with
  | zero => rfl
  | succ n ih =>
      cases src with
      | nil => rfl
      | cons x xs => simp [limitIterator, ih xs]

/-- C6: limitIterator forwards at most count elements — exactly the first
count of the upstream — and stops pulling without exhausting the upstream
handle, which is left holding exactly the unconsumed remainder; chaining
limit 0, then limit 2, then an unlimited collect over one shared source of
[1, 2, 3] yields [], then [1, 2], and leaves [3] for the final collect. -/
theorem limit_partial_consumption :
    (∀ (α : Type) (count : Nat) (src : List α),
        limitIterator count src = (src.take count, src.drop count) ∧
        (limitIterator count src).1.length ≤ count) ∧
    (limitIterator 0 [1, 2, 3] = (([] : List Nat), [1, 2, 3]) ∧
      limitIterator 2 (limitIterator 0 [1, 2, 3]).2 = ([1, 2], [3]) ∧
      (limitIterator 2 (limitIterator 0 [1, 2, 3]).2).2 = [3]) := by
  refine ⟨fun α count src => ⟨limit_take_drop count src, ?_⟩, by decide, by decide, by decide⟩
  rw [limit_take_drop]
  exact List.length_take_le count src

theorem splitGo_delimiter (p : α → Bool) (acc pre : List α) (x : α) (suf : List α)
    (hpre : ∀ y ∈ pre, p y = false) (hx : p x = true) :
    splitGo p acc (pre ++ x :: suf) = (acc ++ pre) :: splitGo p [] suf := by
  induction pre generalizing acc with
  | nil => simp [splitGo, hx]
  | cons a pre ih =>
      have ha : p a = false := hpre a (by simp)
      have h' : ∀ y ∈ pre, p y = false := fun y hy => hpre y (by simp [hy])
      simp only [List.cons_append, splitGo, ha, Bool.false_eq_true, if_neg, ite_false,
        List.append_eq]
      rw [ih (acc ++ [a]) h']
      simp

theorem splitGo_trailing (p : α → Bool) (acc src : List α)
    (hsrc : ∀ y ∈ src, p y = false) :
    splitGo p acc src = if (acc ++ src).length > 0 then [acc ++ src] else [] := by
  induction src generalizing acc with
  | nil => simp [splitGo]
  | cons a rest ih =>
      have ha : p a = false := hsrc a (by simp)
      have h' : ∀ y ∈ rest, p y = false := fun y hy => hsrc y (by simp [hy])
      simp only [splitGo, ha, Bool.false_eq_true, if_neg, ite_false]
      rw [ih (acc ++ [a]) h']
      simp

/-- C7: whenever the predicate holds on an element, that element is
excluded from the output, the segment accumulated before it — possibly
empty — is flushed at that point, and accumulation restarts on the rest;
the trailing segment at exhaustion is flushed only when non-empty. -/
theorem split_predicate_semantics (p : α → Bool) :
    (∀ pre x suf, (∀ y ∈ pre, p y = false) → p x = true →
        splitIterator p (pre ++ x :: suf) = pre :: splitIterator p suf) ∧
    (∀ src, src ≠ [] → (∀ y ∈ src, p y = false) → splitIterator p src = [src]) ∧
    splitIterator p ([] : List α) = [] := by
  refine ⟨fun pre x suf hpre hx => ?_, fun src hne hall => ?_, rfl⟩
  · unfold splitIterator
    rw [splitGo_delimiter p [] pre x suf hpre hx]
    simp
  · unfold splitIterator
    rw [splitGo_trailing p [] src hall]
    simp only [List.nil_append]
    rw [if_pos (by cases src with | nil => exact absurd rfl hne | cons a l => simp)]

/-- Witness for split_predicate_semantics: splitting [1, 2, 3] at the
delimiter 2 flushes [1] there and restarts on [3]. -/
theorem split_predicate_semantics_witness :
    splitIterator (fun n : Nat => n == 2) ([1] ++ 2 :: [3]) =
      [1] :: splitIterator (fun n : Nat => n == 2) [3] :=
  (split_predicate_semantics (fun n : Nat => n == 2)).1 [1] 2 [3] (by decide) (by decide)

theorem groupGo_loose (getKey : α → JVal) (key : JVal) (members xs : List α)
    (h : ∀ y ∈ xs, looseEq key (getKey y) = true) :
    groupGo getKey key members xs = [(key, members ++ xs)] := by
  induction xs generalizing members with
  | nil => simp [groupGo]
  | cons y ys ih =>
      have hy : looseEq key (getKey y) = true := h y (by simp)
      have h' : ∀ z ∈ ys, looseEq key (getKey z) = true := fun z hz => h z (by simp [hz])
      simp only [groupGo, hy, if_pos]
      rw [ih (members ++ [y]) h']
      simp

/-- C10: the consecutive-key group operator compares the current group's
key to the next element's key with JavaScript loose equality, so a run of
elements whose key values are all loosely equal to the first element's key
— for example the number 1 followed by the string "1" — forms a single
group whose key field holds the first element's key value. -/
theorem group_loose_equality (gb : String) (x : JVal) (xs : List JVal)
    (h : ∀ y ∈ xs, looseEq (jsGet x gb) (jsGet y gb) = true) :
    groupIterator gb (x :: xs) = [(jsGet x gb, x :: xs)] := by
  have hdef : groupIterator gb (x :: xs) = groupGo (fun v => jsGet v gb) (jsGet x gb) [x] xs := rfl
  rw [hdef, groupGo_loose (fun v => jsGet v gb) (jsGet x gb) [x] xs h]
  simp

/-- Witness for group_loose_equality: the number key 1 and the string key
"1" are loosely (not strictly) equal, and land in one group keyed by the
first element's number 1. -/
theorem group_loose_equality_witness :
    groupIterator "foo" [JVal.obj [("foo", JVal.num 1)], JVal.obj [("foo", JVal.str "1")]] =
      [(JVal.num 1, [JVal.obj [("foo", JVal.num 1)], JVal.obj [("foo", JVal.str "1")]])] :=
  group_loose_equality "foo" (JVal.obj [("foo", JVal.num 1)]) [JVal.obj [("foo", JVal.str "1")]]
    (by decide)

theorem applyCalls_source (m : FluentIter) (calls : List POp) :
    (applyCalls m calls).source = m.source := by
  induction calls generalizing m with
  | nil => rfl
  | cons c cs ih =>
      rw [applyCalls, ih]
      cases c <;> rfl

/-- C8: constructing the fluent wrapper and chaining any sequence of
operators performs no pull on the upstream source: the source handle inside
the resulting wrapper is exactly the original one, with its pending items
and its production count unchanged; only terminal consumption evaluates the
stages. -/
theorem construction_is_lazy :
    ∀ (calls : List POp) (s : Src),
      (applyCalls (iterator s) calls).source = s ∧
      (applyCalls (iterator s) calls).source.pulled = s.pulled := by
  intro calls s
  rw [applyCalls_source]
  exact ⟨rfl, rfl⟩

/-- C1 fails on the code: with concurrency 1 over the single source item 7
and an operation that resolves to 42, the executor delivers the one result
twice before signalling exhaustion.  The submission loop's race winner is
never deleted from the pool, only overwritten by the next submission, so
the last winner is still in the pool when racingDrain starts and is
yielded a second time; every input length L at least the bound N yields
L + 1 results this way. -/
theorem concurrentMap_duplicates_result :
    (concurrentMapIterator (fun _ => 0) [7] (fun n => Except.ok (n * 6)) 1).1.outs = [42, 42] ∧
    (concurrentMapIterator (fun _ => 0) [7] (fun n => Except.ok (n * 6)) 1).2 = none :=
  ⟨rfl, rfl⟩

/-- C2 fails on the code: in the same run (N = 1, one input), the snapshot
taken while the executor is suspended at the loop's first yield shows the
free-slot registry [0] and the pool key set [0] simultaneously — slot 0 is
both free and a pool key, the two sets are not complementary, and their
sizes sum to 2, not N = 1. -/
theorem registry_pool_not_complementary :
    ∃ snap ∈ (concurrentMapIterator (fun _ => 0) [7] (fun n => Except.ok (n * 6)) 1).1.snaps,
      snap.1.length + snap.2.length ≠ 1 ∧ ∃ s ∈ snap.1, s ∈ snap.2 := by
  decide

/-- C4 (amended): every concurrency bound below 1 makes both executor entry
points fail at the first pull of the returned sequence, before any input is
pulled, any operation submitted, or any result yielded (the state is still
the empty one); the error is the custom Invalid concurrency count error for
a bound of exactly 0, and the RangeError of Array(count) for a negative
bound. -/
theorem invalid_count_fails_eagerly (U : Type) (σ : Sched U) (count : Int)
    (rs : List (Except String U)) (h : count < 1) :
    concurrentRun σ count rs =
      (emptyExecSt U, some (if count < 0 then "Invalid array length" else "Invalid concurrency count")) := by
  unfold concurrentRun
  by_cases hneg : count < 0
  · simp [hneg]
  · have h0 : count = 0 := by omega
    subst h0
    simp

/-- Witness for invalid_count_fails_eagerly at the bound 0. -/
theorem invalid_count_fails_eagerly_witness :
    concurrentRun (fun _ => 0) 0 ([] : List (Except String Nat)) =
      (emptyExecSt Nat, some "Invalid concurrency count") := by
  have h := invalid_count_fails_eagerly Nat (fun _ => 0) 0 [] (by decide)
  simpa using h

/-- C4 as stated is false for negative bounds: at bound -1 the failure is
the RangeError message of Array(-1), not the Invalid concurrency count
configuration error the claim names. -/
theorem negative_count_error_message :
    (concurrentRun (fun _ => 0) (-1) ([] : List (Except String Nat))).2 = some "Invalid array length" ∧
    ("Invalid array length" : String) ≠ "Invalid concurrency count" :=
  ⟨rfl, by decide⟩

theorem snoc_eq_snoc {l q : List α} {a b : α} (h : l ++ [a] = q ++ [b]) : l = q ∧ a = b := by
  have h' := congrArg List.reverse h
  simp only [List.reverse_append, List.reverse_cons, List.reverse_nil, List.nil_append,
    List.cons_append, List.cons.injEq] at h'
  exact ⟨List.reverse_injective h'.2, h'.1⟩

theorem starts_refl (l : List α) : starts l l := ⟨[], List.append_nil l⟩

theorem starts_snoc_cases {p l : List α} {e : α} (h : starts p (l ++ [e])) :
    starts p l ∨ p = l ++ [e] := by
  obtain ⟨t, ht⟩ := h
  rcases List.eq_nil_or_concat' t with rfl | ⟨t', b, rfl⟩
  · right; simpa using ht
  · left
    rw [show p ++ (t' ++ [b]) = (p ++ t') ++ [b] by simp] at ht
    obtain ⟨h1, _⟩ := snoc_eq_snoc ht
    exact ⟨t', h1⟩

theorem startsAll_snoc {P : List α → Prop} {l : List α} {e : α}
    (h : ∀ p, starts p l → P p) (he : P (l ++ [e])) :
    ∀ p, starts p (l ++ [e]) → P p := by
  intro p hp
  rcases starts_snoc_cases hp with h1 | rfl
  · exact h p h1
  · exact he

theorem flightOf_snoc (l : List Ev) (e : Ev) :
    flightOf (l ++ [e]) = flightStep (flightOf l) e := by
  unfold flightOf
  rw [List.foldl_append]
  rfl

theorem pullCount_snoc (l : List Ev) (e : Ev) :
    pullCount (l ++ [e]) = pullCount l + pullTick e := by
  unfold pullCount
  rw [List.filter_append, List.length_append]
  cases e <;> rfl

theorem yldCount_snoc (l : List Ev) (e : Ev) :
    yldCount (l ++ [e]) = yldCount l + yldTick e := by
  unfold yldCount
  rw [List.filter_append, List.length_append]
  cases e <;> rfl

theorem submitIdxs_snoc (l : List Ev) (e : Ev) :
    submitIdxs (l ++ [e]) = submitIdxs l ++ submitTick e := by
  unfold submitIdxs
  rw [List.filterMap_append]
  cases e <;> rfl

theorem racePick_mem (σ : Sched U) (p : PoolEntry U) (ps : List (PoolEntry U)) :
    racePick σ p ps ∈ p :: ps := by
  unfold racePick
  have hlt : σ (p :: ps) % (ps.length + 1) < (p :: ps).length :=
    Nat.mod_lt _ (Nat.succ_pos _)
  rw [List.getD_eq_get?, List.get?_eq_get hlt, Option.getD_some]
  exact List.get_mem _ _ _

theorem poolSet_ne_nil (pool : List (PoolEntry U)) (e : PoolEntry U) :
    poolSet pool e ≠ [] := by
  unfold poolSet
  by_cases h : pool.any (fun q => q.slot == e.slot)
  · rw [if_pos h]
    cases pool with
    | nil => simp at h
    | cons a l => simp
  · rw [if_neg h]
    simp

theorem self_mem_poolSet (pool : List (PoolEntry U)) (e : PoolEntry U) :
    e ∈ poolSet pool e := by
  unfold poolSet
  by_cases h : pool.any (fun q => q.slot == e.slot)
  · rw [if_pos h]
    rw [List.any_eq_true] at h
    obtain ⟨x, hx, hxs⟩ := h
    exact List.mem_map.mpr ⟨x, hx, by rw [if_pos hxs]⟩
  · rw [if_neg h]
    simp

theorem mem_poolSet_elim {pool : List (PoolEntry U)} {e q : PoolEntry U}
    (h : q ∈ poolSet pool e) : q = e ∨ (q ∈ pool ∧ q.slot ≠ e.slot) := by
  unfold poolSet at h
  by_cases hc : pool.any (fun x => x.slot == e.slot)
  · rw [if_pos hc] at h
    obtain ⟨x, hx, hq⟩ := List.mem_map.mp h
    by_cases hs : x.slot == e.slot
    · rw [if_pos hs] at hq
      left; exact hq.symm
    · rw [if_neg hs] at hq
      right
      refine ⟨hq ▸ hx, ?_⟩
      intro hcon
      exact hs (by rw [← hq] at hcon; exact beq_iff_eq.mpr hcon)
  · rw [if_neg hc] at h
    rcases List.mem_append.mp h with h1 | h2
    · right
      refine ⟨h1, ?_⟩
      simp only [Bool.not_eq_true, List.any_eq_false] at hc
      intro hcon
      have hq := hc q h1
      rw [hcon] at hq
      simp at hq
    · left; simpa using h2

theorem mem_poolSet_of_ne {pool : List (PoolEntry U)} {e q : PoolEntry U}
    (hq : q ∈ pool) (hne : q.slot ≠ e.slot) : q ∈ poolSet pool e := by
  unfold poolSet
  by_cases hc : pool.any (fun x => x.slot == e.slot)
  · rw [if_pos hc]
    refine List.mem_map.mpr ⟨q, hq, ?_⟩
    rw [if_neg (by simpa using hne)]
  · rw [if_neg hc]
    exact List.mem_append.mpr (Or.inl hq)

theorem poolSet_keys_nodup {pool : List (PoolEntry U)} {e : PoolEntry U}
    (h : (pool.map (fun q => q.slot)).Nodup) :
    ((poolSet pool e).map (fun q => q.slot)).Nodup := by
  unfold poolSet
  by_cases hc : pool.any (fun x => x.slot == e.slot)
  · rw [if_pos hc]
    have heq : (pool.map (fun q => if q.slot == e.slot then e else q)).map (fun q => q.slot)
        = pool.map (fun q => q.slot) := by
      rw [List.map_map]
      refine List.map_congr_left ?_
      intro x _
      by_cases hs : x.slot == e.slot
      · rw [Function.comp_apply, if_pos hs]
        exact (beq_iff_eq.mp hs).symm
      · rw [Function.comp_apply, if_neg hs]
    rw [heq]
    exact h
  · rw [if_neg hc]
    rw [List.map_append, List.nodup_append]
    refine ⟨h, List.nodup_singleton _, ?_⟩
    intro a ha hb
    simp only [List.map_cons, List.map_nil, List.mem_singleton] at hb
    simp only [Bool.not_eq_true, List.any_eq_false] at hc
    obtain ⟨x, hx, hxs⟩ := List.mem_map.mp ha
    have hx' := hc x hx
    rw [hxs.trans hb] at hx'
    simp at hx'

theorem pool_eq_of_slot_eq {pool : List (PoolEntry U)}
    (h : (pool.map (fun q => q.slot)).Nodup) {a b : PoolEntry U}
    (ha : a ∈ pool) (hb : b ∈ pool) (hs : a.slot = b.slot) : a = b :=
  List.inj_on_of_nodup_map h ha hb hs

theorem length_filter_lt_of_mem {l : List α} {x : α} {p : α → Bool}
    (hx : x ∈ l) (hpx : p x = false) : (l.filter p).length < l.length := by
  induction l with
  | nil => cases hx
  | cons a l ih =>
      rcases List.mem_cons.mp hx with rfl | hx'
      · rw [List.filter_cons, if_neg (by simp [hpx])]
        exact Nat.lt_succ_of_le (List.length_filter_le p l)
      · rw [List.filter_cons]
        by_cases hpa : p a
        · rw [if_pos (by simp [hpa])]
          simpa using ih hx'
        · rw [if_neg (by simpa using hpa)]
          exact Nat.lt_succ_of_lt (ih hx')

theorem flight_remove_perm {fl : List (Nat × Nat)} {j s : Nat}
    (hmem : (j, s) ∈ fl) (hnodup : (fl.map (fun q => q.1)).Nodup) :
    fl.Perm ((j, s) :: fl.filter (fun q => q.1 != j)) := by
  induction fl with
  | nil => cases hmem
  | cons a fl ih =>
      simp only [List.map_cons, List.nodup_cons] at hnodup
      rcases List.mem_cons.mp hmem with rfl | hmem'
      · have hfl : fl.filter (fun q => q.1 != j) = fl := by
          rw [List.filter_eq_self]
          intro q hq
          have hne : q.1 ≠ j := by
            intro hc
            exact hnodup.1 (hc ▸ List.mem_map.mpr ⟨q, hq, rfl⟩)
          simpa using hne
        rw [List.filter_cons, if_neg (by simp)]
        rw [hfl]
      · have ha : a.1 ≠ j := by
          intro hc
          exact hnodup.1 (hc ▸ List.mem_map.mpr ⟨(j, s), hmem', rfl⟩)
        rw [List.filter_cons, if_pos (by simpa using ha)]
        exact ((ih hmem' hnodup.2).cons a).trans (List.Perm.swap (j, s) a _)

theorem append_two (l : List α) (a b : α) : l ++ [a, b] = (l ++ [a]) ++ [b] := by simp

theorem evok_snoc_complete {N : Nat} {l : List Ev} {j s : Nat}
    (h : ∀ p, starts p l → EvOK N p) :
    ∀ p, starts p (l ++ [Ev.complete j s]) → EvOK N p := by
  refine startsAll_snoc h ?_
  obtain ⟨h1, h2, _, h4⟩ := h l (starts_refl l)
  refine ⟨?_, ?_, ?_, ?_⟩
  · rw [flightOf_snoc]
    exact le_trans (List.length_filter_le _ _) h1
  · rw [flightOf_snoc]
    exact List.Nodup.sublist (List.Sublist.map _ (List.filter_sublist _)) h2
  · intro q j' hq
    exact Ev.noConfusion (snoc_eq_snoc hq).2
  · rw [pullCount_snoc, yldCount_snoc]
    simpa [pullTick, yldTick] using h4

theorem evok_snoc_yld {N : Nat} {l : List Ev}
    (h : ∀ p, starts p l → EvOK N p) :
    ∀ p, starts p (l ++ [Ev.yld]) → EvOK N p := by
  refine startsAll_snoc h ?_
  obtain ⟨h1, h2, _, h4⟩ := h l (starts_refl l)
  refine ⟨?_, ?_, ?_, ?_⟩
  · rw [flightOf_snoc]; exact h1
  · rw [flightOf_snoc]; exact h2
  · intro q j' hq
    exact Ev.noConfusion (snoc_eq_snoc hq).2
  · rw [pullCount_snoc, yldCount_snoc]
    simp only [pullTick, yldTick, Nat.add_zero]
    omega

theorem evok_snoc_fail {N : Nat} {l : List Ev}
    (h : ∀ p, starts p l → EvOK N p) :
    ∀ p, starts p (l ++ [Ev.fail]) → EvOK N p := by
  refine startsAll_snoc h ?_
  obtain ⟨h1, h2, _, h4⟩ := h l (starts_refl l)
  refine ⟨?_, ?_, ?_, ?_⟩
  · rw [flightOf_snoc]; exact h1
  · rw [flightOf_snoc]; exact h2
  · intro q j' hq
    exact Ev.noConfusion (snoc_eq_snoc hq).2
  · rw [pullCount_snoc, yldCount_snoc]
    simpa [pullTick, yldTick] using h4

theorem racingDrain_nil (σ : Sched U) (fuel : Nat) (st : ExecSt U) (h : st.pool = []) :
    racingDrain σ fuel st = (st, none) := by
  cases fuel <;> simp [racingDrain, h]

theorem racingDrain_succ_err (σ : Sched U) (fuel : Nat) (st : ExecSt U) {p : PoolEntry U}
    {ps : List (PoolEntry U)} (h : st.pool = p :: ps)
    {e : String} (hres : (racePick σ p ps).result = Except.error e) :
    racingDrain σ (fuel + 1) st =
      ({ st with
          flight := st.flight.filter (fun q => q.1 != (racePick σ p ps).idx),
          evs := st.evs ++ [Ev.complete (racePick σ p ps).idx (racePick σ p ps).slot, Ev.fail] },
        some e) := by
  simp only [racingDrain, h, hres]

theorem racingDrain_succ_ok (σ : Sched U) (fuel : Nat) (st : ExecSt U) {p : PoolEntry U}
    {ps : List (PoolEntry U)} (h : st.pool = p :: ps)
    {u : U} (hres : (racePick σ p ps).result = Except.ok u) :
    racingDrain σ (fuel + 1) st =
      racingDrain σ fuel
        { st with
            pool := (p :: ps).filter (fun q => q.slot != (racePick σ p ps).slot),
            flight := st.flight.filter (fun q => q.1 != (racePick σ p ps).idx),
            outs := st.outs ++ [u],
            evs := st.evs ++ [Ev.complete (racePick σ p ps).idx (racePick σ p ps).slot, Ev.yld],
            snaps := st.snaps ++ [(st.slots, (p :: ps).map (fun q => q.slot))] } := by
  simp only [racingDrain, h, hres]

theorem concurrentLoop_nil (σ : Sched U) (idx : Nat) (st : ExecSt U) :
    concurrentLoop σ [] idx st = racingDrain σ st.pool.length st := rfl

theorem concurrentLoop_cons_go (σ : Sched U) (r : Except String U) (rest : List (Except String U))
    (idx : Nat) (st : ExecSt U) {s s' : Nat} {more : List Nat} (h : st.slots = s :: s' :: more) :
    concurrentLoop σ (r :: rest) idx st =
      concurrentLoop σ rest (idx + 1)
        { st with slots := s' :: more,
                  pool := poolSet st.pool ⟨s, idx, r⟩,
                  flight := st.flight ++ [(idx, s)],
                  evs := st.evs ++ [Ev.pull idx, Ev.submit idx s] } := by
  simp only [concurrentLoop, h]

theorem concurrentLoop_cons_err (σ : Sched U) (r : Except String U) (rest : List (Except String U))
    (idx : Nat) (st : ExecSt U) {s : Nat} (h : st.slots = [s])
    {p : PoolEntry U} {ps : List (PoolEntry U)} (hpool : poolSet st.pool ⟨s, idx, r⟩ = p :: ps)
    {e : String} (hres : (racePick σ p ps).result = Except.error e) :
    concurrentLoop σ (r :: rest) idx st =
      ({ st with slots := ([] : List Nat),
                 pool := p :: ps,
                 flight := (st.flight ++ [(idx, s)]).filter (fun q => q.1 != (racePick σ p ps).idx),
                 evs := (st.evs ++ [Ev.pull idx, Ev.submit idx s]) ++
                   [Ev.complete (racePick σ p ps).idx (racePick σ p ps).slot, Ev.fail] },
        some e) := by
  simp only [concurrentLoop, h, hpool, hres]

theorem concurrentLoop_cons_ok (σ : Sched U) (r : Except String U) (rest : List (Except String U))
    (idx : Nat) (st : ExecSt U) {s : Nat} (h : st.slots = [s])
    {p : PoolEntry U} {ps : List (PoolEntry U)} (hpool : poolSet st.pool ⟨s, idx, r⟩ = p :: ps)
    {u : U} (hres : (racePick σ p ps).result = Except.ok u) :
    concurrentLoop σ (r :: rest) idx st =
      concurrentLoop σ rest (idx + 1)
        { st with slots := [(racePick σ p ps).slot],
                  pool := p :: ps,
                  flight := (st.flight ++ [(idx, s)]).filter (fun q => q.1 != (racePick σ p ps).idx),
                  outs := st.outs ++ [u],
                  evs := (st.evs ++ [Ev.pull idx, Ev.submit idx s]) ++
                    [Ev.complete (racePick σ p ps).idx (racePick σ p ps).slot, Ev.yld],
                  snaps := st.snaps ++ [([(racePick σ p ps).slot], (p :: ps).map (fun q => q.slot))] } := by
  simp only [concurrentLoop, h, hpool, hres]

theorem racingDrain_post (σ : Sched U) (N : Nat) (rs : List (Except String U)) :
    ∀ (fuel : Nat) (st : ExecSt U), st.pool.length ≤ fuel → DrainInv N rs st →
      RunPost N rs (racingDrain σ fuel st).1 (racingDrain σ fuel st).2 ∧
      ((∃ e ∈ st.pool, ∃ msg, e.result = Except.error msg) →
        ((racingDrain σ fuel st).2).isSome = true) := by
  intro fuel
  induction fuel with
  | zero =>
      intro st hle hinv
      have hpool : st.pool = [] := List.eq_nil_of_length_eq_zero (Nat.le_zero.mp hle)
      rw [racingDrain_nil σ 0 st hpool]
      refine ⟨⟨hinv.evok, hinv.sub_nodup, ?_, hinv.flight_pool, hinv.not_stuck⟩, ?_⟩
      · intro e he; exact Option.noConfusion he
      · rintro ⟨e, he, _⟩
        simp [hpool] at he
  | succ fuel ih =>
      intro st hle hinv
      rcases hp : st.pool with _ | ⟨p, ps⟩
      · rw [racingDrain_nil σ (fuel + 1) st hp]
        refine ⟨⟨hinv.evok, hinv.sub_nodup, ?_, hinv.flight_pool, hinv.not_stuck⟩, ?_⟩
        · intro e he; exact Option.noConfusion he
        · rintro ⟨e, he, _⟩
          simp [hp] at he
      · have hw : racePick σ p ps ∈ st.pool := hp ▸ racePick_mem σ p ps
        rcases hres : (racePick σ p ps).result with e | u
        · rw [racingDrain_succ_err σ fuel st hp hres]
          refine ⟨⟨?_, ?_, ?_, ?_, hinv.not_stuck⟩, fun _ => rfl⟩
          · show ∀ q, starts q (st.evs ++ [_, _]) → EvOK N q
            rw [append_two]
            exact evok_snoc_fail (evok_snoc_complete hinv.evok)
          · show (submitIdxs (st.evs ++ [_, _])).Nodup
            rw [append_two, submitIdxs_snoc, submitIdxs_snoc]
            simpa [submitTick] using hinv.sub_nodup
          · intro e' he'
            obtain rfl : e = e' := Option.some.inj he'
            refine ⟨(racePick σ p ps).idx, (racePick σ p ps).slot, st.evs, rfl, ?_⟩
            have hpr := hinv.pool_rs _ hw
            rw [hres] at hpr
            exact hpr
          · intro q hq
            have hq' := List.mem_filter.mp hq
            obtain ⟨e₀, he₀, hidx, hslot⟩ := hinv.flight_pool q hq'.1
            exact ⟨e₀, he₀, hidx, hslot⟩
        · rw [racingDrain_succ_ok σ fuel st hp hres]
          have hlen : ((p :: ps).filter (fun q => q.slot != (racePick σ p ps).slot)).length ≤ fuel := by
            have hlt : ((p :: ps).filter (fun q => q.slot != (racePick σ p ps).slot)).length
                < (p :: ps).length :=
              length_filter_lt_of_mem (racePick_mem σ p ps) (by simp)
            have : (p :: ps).length ≤ fuel + 1 := hp ▸ hle
            omega
          have hsurvive : ∀ e₀ ∈ st.pool, e₀.slot ≠ (racePick σ p ps).slot →
              e₀ ∈ (p :: ps).filter (fun q => q.slot != (racePick σ p ps).slot) := by
            intro e₀ he₀ hne
            exact List.mem_filter.mpr ⟨hp ▸ he₀, bne_iff_ne.mpr hne⟩
          have hkeys : (st.pool.map (fun e => e.slot)).Nodup := hinv.keys_nodup
          have hinv2 : DrainInv N rs
              { st with
                  pool := (p :: ps).filter (fun q => q.slot != (racePick σ p ps).slot),
                  flight := st.flight.filter (fun q => q.1 != (racePick σ p ps).idx),
                  outs := st.outs ++ [u],
                  evs := st.evs ++ [Ev.complete (racePick σ p ps).idx (racePick σ p ps).slot, Ev.yld],
                  snaps := st.snaps ++ [(st.slots, (p :: ps).map (fun q => q.slot))] } := by
            refine ⟨?_, ?_, ?_, ?_, ?_, ?_, hinv.not_stuck⟩
            · exact List.Nodup.sublist (List.Sublist.map _ (List.filter_sublist _)) (hp ▸ hkeys)
            · intro q hq
              exact hinv.pool_rs q (hp ▸ (List.mem_filter.mp hq).1)
            · intro q hq
              have hq' := List.mem_filter.mp hq
              obtain ⟨e₀, he₀, hidx, hslot⟩ := hinv.flight_pool q hq'.1
              have hne : e₀.slot ≠ (racePick σ p ps).slot := by
                intro hc
                have : e₀ = racePick σ p ps := pool_eq_of_slot_eq hkeys he₀ hw hc
                rw [this] at hidx
                have := bne_iff_ne.mp hq'.2
                exact this (hidx.symm)
              exact ⟨e₀, hsurvive e₀ he₀ hne, hidx, hslot⟩
            · show flightOf (st.evs ++ [_, _]) = _
              rw [append_two, flightOf_snoc, flightOf_snoc, hinv.replay]
              rfl
            · show ∀ q, starts q (st.evs ++ [_, _]) → EvOK N q
              rw [append_two]
              exact evok_snoc_yld (evok_snoc_complete hinv.evok)
            · show (submitIdxs (st.evs ++ [_, _])).Nodup
              rw [append_two, submitIdxs_snoc, submitIdxs_snoc]
              simpa [submitTick] using hinv.sub_nodup
          refine ⟨(ih _ hlen hinv2).1, ?_⟩
          rintro ⟨e₀, he₀, msg, hmsg⟩
          have he₀' : e₀ ∈ st.pool := by rw [hp]; exact he₀
          have hne : e₀.slot ≠ (racePick σ p ps).slot := by
            intro hc
            have heq : e₀ = racePick σ p ps := pool_eq_of_slot_eq hkeys he₀' hw hc
            rw [heq, hres] at hmsg
            exact Except.noConfusion hmsg
          exact (ih _ hlen hinv2).2 ⟨e₀, hsurvive e₀ he₀' hne, msg, hmsg⟩

theorem concurrentLoop_post (σ : Sched U) (N : Nat) (rs : List (Except String U)) :
    ∀ (rest : List (Except String U)) (idx : Nat) (st : ExecSt U),
      (∀ k, rest.get? k = rs.get? (idx + k)) → LoopInv N rs idx st →
      RunPost N rs (concurrentLoop σ rest idx st).1 (concurrentLoop σ rest idx st).2 ∧
      (((∃ e ∈ st.pool, ∃ msg, e.result = Except.error msg) ∨
        (∃ x ∈ rest, ∃ msg, x = Except.error msg)) →
        ((concurrentLoop σ rest idx st).2).isSome = true) := by
  intro rest
  induction rest with
  | nil =>
      intro idx st hk hinv
      rw [concurrentLoop_nil]
      have hdinv : DrainInv N rs st :=
        ⟨hinv.keys_nodup, hinv.pool_rs, hinv.flight_pool, hinv.replay, hinv.evok,
          hinv.sub_nodup, hinv.not_stuck⟩
      have hpost := racingDrain_post σ N rs st.pool.length st le_rfl hdinv
      refine ⟨hpost.1, ?_⟩
      rintro (herr | ⟨x, hx, _⟩)
      · exact hpost.2 herr
      · cases hx
  | cons r rest ih =>
      intro idx st hk hinv
      rcases hsl : st.slots with _ | ⟨s, slotsRest⟩
      · exact absurd hsl hinv.slots_ne
      have hr0 : rs.get? idx = some r := (hk 0).symm
      have hk' : ∀ k, rest.get? k = rs.get? (idx + 1 + k) := by
        intro k
        rw [show idx + 1 + k = idx + (k + 1) from by omega]
        exact hk (k + 1)
      have hlen : st.slots.length + st.flight.length = N := by
        have hpl := hinv.perm.length_eq
        simpa using hpl
      have hnd : (st.slots ++ st.flight.map (fun q => q.2)).Nodup :=
        hinv.perm.symm.nodup (List.nodup_range N)
      have hndparts := List.nodup_append.mp hnd
      have hs_mem : s ∈ st.slots := by rw [hsl]; simp
      have hs_not_flight : s ∉ st.flight.map (fun q => q.2) := fun hc => hndparts.2.2 hs_mem hc
      have hflight_lt_N : st.flight.length < N := by
        rw [hsl] at hlen
        simp at hlen
        omega
      have hA : ∀ p, starts p (st.evs ++ [Ev.pull idx]) → EvOK N p := by
        refine startsAll_snoc hinv.evok ?_
        refine ⟨?_, ?_, ?_, ?_⟩
        · rw [flightOf_snoc]
          show (flightOf st.evs).length ≤ N
          rw [hinv.replay]
          omega
        · rw [flightOf_snoc]
          show ((flightOf st.evs).map _).Nodup
          rw [hinv.replay]
          exact hndparts.2.1
        · intro q j hq
          obtain ⟨hq1, _⟩ := snoc_eq_snoc hq
          rw [← hq1, hinv.replay]
          exact hflight_lt_N
        · rw [pullCount_snoc, yldCount_snoc]
          have hc := hinv.counts
          simp only [pullTick, yldTick]
          omega
      have hevok1 : ∀ p, starts p (st.evs ++ [Ev.pull idx, Ev.submit idx s]) → EvOK N p := by
        rw [append_two]
        refine startsAll_snoc hA ?_
        refine ⟨?_, ?_, ?_, ?_⟩
        · rw [flightOf_snoc, flightOf_snoc]
          simp only [flightStep]
          rw [hinv.replay]
          simp only [List.length_append, List.length_cons, List.length_nil]
          omega
        · rw [flightOf_snoc, flightOf_snoc]
          simp only [flightStep]
          rw [hinv.replay, List.map_append]
          rw [List.nodup_append]
          refine ⟨hndparts.2.1, List.nodup_singleton _, ?_⟩
          intro a ha hb
          simp only [List.map_cons, List.map_nil, List.mem_singleton] at hb
          exact hs_not_flight (hb ▸ ha)
        · intro q j hq
          exact Ev.noConfusion (snoc_eq_snoc hq).2
        · rw [pullCount_snoc, pullCount_snoc, yldCount_snoc, yldCount_snoc]
          have hc := hinv.counts
          simp only [pullTick, yldTick]
          omega
      have hreplay1 : flightOf (st.evs ++ [Ev.pull idx, Ev.submit idx s]) =
          st.flight ++ [(idx, s)] := by
        rw [append_two, flightOf_snoc, flightOf_snoc]
        simp only [flightStep]
        rw [hinv.replay]
      have hcounts1 : pullCount (st.evs ++ [Ev.pull idx, Ev.submit idx s]) =
          yldCount (st.evs ++ [Ev.pull idx, Ev.submit idx s]) + (st.flight ++ [(idx, s)]).length := by
        rw [append_two, pullCount_snoc, pullCount_snoc, yldCount_snoc, yldCount_snoc]
        have hc := hinv.counts
        simp only [pullTick, yldTick, List.length_append, List.length_cons, List.length_nil]
        omega
      have hsub1 : submitIdxs (st.evs ++ [Ev.pull idx, Ev.submit idx s]) =
          submitIdxs st.evs ++ [idx] := by
        rw [append_two, submitIdxs_snoc, submitIdxs_snoc]
        simp [submitTick]
      have hsubnodup1 : (submitIdxs (st.evs ++ [Ev.pull idx, Ev.submit idx s])).Nodup := by
        rw [hsub1, List.nodup_append]
        refine ⟨hinv.sub_nodup, List.nodup_singleton _, ?_⟩
        intro a ha hb
        simp only [List.mem_singleton] at hb
        rw [hb] at ha
        exact absurd (hinv.sub_lt _ ha) (lt_irrefl idx)
      have hsublt1 : ∀ i ∈ submitIdxs (st.evs ++ [Ev.pull idx, Ev.submit idx s]), i < idx + 1 := by
        rw [hsub1]
        intro i hi
        rcases List.mem_append.mp hi with h1 | h2
        · exact Nat.lt_succ_of_lt (hinv.sub_lt i h1)
        · simp only [List.mem_singleton] at h2
          omega
      have hfl_lt1 : ∀ q ∈ st.flight ++ [(idx, s)], q.1 < idx + 1 := by
        intro q hq
        rcases List.mem_append.mp hq with h1 | h2
        · exact Nat.lt_succ_of_lt (hinv.flight_lt q h1)
        · simp only [List.mem_singleton] at h2
          subst h2
          omega
      have hfl_nodup1 : ((st.flight ++ [(idx, s)]).map (fun q => q.1)).Nodup := by
        rw [List.map_append, List.nodup_append]
        refine ⟨hinv.flight_nodup, List.nodup_singleton _, ?_⟩
        intro a ha hb
        simp only [List.map_cons, List.map_nil, List.mem_singleton] at hb
        rw [hb] at ha
        obtain ⟨q, hq, hq1⟩ := List.mem_map.mp ha
        exact absurd (hq1 ▸ hinv.flight_lt q hq) (lt_irrefl idx)
      have hkeys1 : ((poolSet st.pool ⟨s, idx, r⟩).map (fun e => e.slot)).Nodup :=
        poolSet_keys_nodup hinv.keys_nodup
      have hpool_rs1 : ∀ q ∈ poolSet st.pool ⟨s, idx, r⟩, rs.get? q.idx = some q.result := by
        intro q hq
        rcases mem_poolSet_elim hq with rfl | ⟨hq', _⟩
        · exact hr0
        · exact hinv.pool_rs q hq'
      have hflight_pool1 : ∀ q ∈ st.flight ++ [(idx, s)],
          ∃ e ∈ poolSet st.pool ⟨s, idx, r⟩, e.idx = q.1 ∧ e.slot = q.2 := by
        intro q hq
        rcases List.mem_append.mp hq with h1 | h2
        · obtain ⟨e₀, he₀, hidx, hslot⟩ := hinv.flight_pool q h1
          have hne : e₀.slot ≠ s := by
            intro hc
            exact hs_not_flight (List.mem_map.mpr ⟨q, h1, by rw [← hslot, hc]⟩)
          exact ⟨e₀, mem_poolSet_of_ne he₀ hne, hidx, hslot⟩
        · simp only [List.mem_singleton] at h2
          subst h2
          exact ⟨⟨s, idx, r⟩, self_mem_poolSet _ _, rfl, rfl⟩
      have hpool_flight1 : ∀ e₀ ∈ poolSet st.pool ⟨s, idx, r⟩,
          (e₀.idx, e₀.slot) ∈ st.flight ++ [(idx, s)] ∨
            (e₀.slot ∈ slotsRest ∧ ∃ v, e₀.result = Except.ok v) := by
        intro e₀ he₀
        rcases mem_poolSet_elim he₀ with rfl | ⟨he', hne⟩
        · left; simp
        · rcases hinv.pool_flight e₀ he' with h1 | ⟨h2, h3⟩
          · left
            exact List.mem_append.mpr (Or.inl h1)
          · right
            refine ⟨?_, h3⟩
            rw [hsl] at h2
            rcases List.mem_cons.mp h2 with hc | hc
            · exact absurd hc hne
            · exact hc
      have hperm1 : (slotsRest ++ (st.flight ++ [(idx, s)]).map (fun q => q.2)).Perm
          (List.range N) := by
        rw [List.map_append]
        have hstep : (slotsRest ++ (st.flight.map (fun q => q.2) ++ [s])).Perm
            ((s :: slotsRest) ++ st.flight.map (fun q => q.2)) := by
          rw [← List.append_assoc]
          exact List.perm_append_singleton _ _
        refine hstep.trans ?_
        have hp := hinv.perm
        rw [hsl] at hp
        exact hp
      rcases slotsRest with _ | ⟨s', more⟩
      · -- the free-slot stack emptied: the loop yields the race of the pool
        rcases hpp : poolSet st.pool ⟨s, idx, r⟩ with _ | ⟨p, ps⟩
        · exact absurd hpp (poolSet_ne_nil _ _)
        have hw_mem : racePick σ p ps ∈ poolSet st.pool ⟨s, idx, r⟩ := by
          rw [hpp]
          exact racePick_mem σ p ps
        have hw_fl : ((racePick σ p ps).idx, (racePick σ p ps).slot) ∈
            st.flight ++ [(idx, s)] := by
          rcases hpool_flight1 _ hw_mem with h1 | ⟨h2, _⟩
          · exact h1
          · cases h2
        have hfl2_perm : (st.flight ++ [(idx, s)]).Perm
            (((racePick σ p ps).idx, (racePick σ p ps).slot) ::
              (st.flight ++ [(idx, s)]).filter (fun q => q.1 != (racePick σ p ps).idx)) :=
          flight_remove_perm hw_fl hfl_nodup1
        have hsnds1 : ((st.flight ++ [(idx, s)]).map (fun q => q.2)).Perm (List.range N) := by
          simpa using hperm1
        have hsnds2 : ((racePick σ p ps).slot ::
            ((st.flight ++ [(idx, s)]).filter
              (fun q => q.1 != (racePick σ p ps).idx)).map (fun q => q.2)).Perm
            (List.range N) := by
          have hmap := hfl2_perm.map (fun q => q.2)
          simp only [List.map_cons] at hmap
          exact hmap.symm.trans hsnds1
        have hfl2_len : (st.flight ++ [(idx, s)]).length =
            ((st.flight ++ [(idx, s)]).filter
              (fun q => q.1 != (racePick σ p ps).idx)).length + 1 := by
          have hl := hfl2_perm.length_eq
          simpa using hl
        have hflight2_lt : ∀ q ∈ (st.flight ++ [(idx, s)]).filter
            (fun q => q.1 != (racePick σ p ps).idx), q.1 < idx + 1 :=
          fun q hq => hfl_lt1 q (List.mem_filter.mp hq).1
        have hflight2_nodup : (((st.flight ++ [(idx, s)]).filter
            (fun q => q.1 != (racePick σ p ps).idx)).map (fun q => q.1)).Nodup :=
          List.Nodup.sublist (List.Sublist.map _ (List.filter_sublist _)) hfl_nodup1
        have hflight_pool2 : ∀ q ∈ (st.flight ++ [(idx, s)]).filter
            (fun q => q.1 != (racePick σ p ps).idx),
            ∃ e ∈ p :: ps, e.idx = q.1 ∧ e.slot = q.2 := by
          intro q hq
          obtain ⟨e₀, he₀, hi, hs'⟩ := hflight_pool1 q (List.mem_filter.mp hq).1
          rw [hpp] at he₀
          exact ⟨e₀, he₀, hi, hs'⟩
        rcases hres : (racePick σ p ps).result with e | u
        · rw [concurrentLoop_cons_err σ r rest idx st hsl hpp hres]
          refine ⟨⟨?_, ?_, ?_, hflight_pool2, hinv.not_stuck⟩, fun _ => rfl⟩
          · show ∀ q, starts q ((st.evs ++ [Ev.pull idx, Ev.submit idx s]) ++ [_, _]) → EvOK N q
            rw [append_two (st.evs ++ [Ev.pull idx, Ev.submit idx s])]
            exact evok_snoc_fail (evok_snoc_complete hevok1)
          · show (submitIdxs ((st.evs ++ [Ev.pull idx, Ev.submit idx s]) ++ [_, _])).Nodup
            rw [append_two (st.evs ++ [Ev.pull idx, Ev.submit idx s]), submitIdxs_snoc,
              submitIdxs_snoc]
            simpa [submitTick] using hsubnodup1
          · intro e' he'
            obtain rfl : e = e' := Option.some.inj he'
            refine ⟨(racePick σ p ps).idx, (racePick σ p ps).slot,
              st.evs ++ [Ev.pull idx, Ev.submit idx s], rfl, ?_⟩
            have hpr := hpool_rs1 _ hw_mem
            rw [hres] at hpr
            exact hpr
        · rw [concurrentLoop_cons_ok σ r rest idx st hsl hpp hres]
          have hinv2 : LoopInv N rs (idx + 1)
              { st with slots := [(racePick σ p ps).slot],
                        pool := p :: ps,
                        flight := (st.flight ++ [(idx, s)]).filter
                          (fun q => q.1 != (racePick σ p ps).idx),
                        outs := st.outs ++ [u],
                        evs := (st.evs ++ [Ev.pull idx, Ev.submit idx s]) ++
                          [Ev.complete (racePick σ p ps).idx (racePick σ p ps).slot, Ev.yld],
                        snaps := st.snaps ++
                          [([(racePick σ p ps).slot], (p :: ps).map (fun q => q.slot))] } := by
            refine ⟨by simp, ?_, hflight2_lt, hflight2_nodup, ?_, ?_, ?_, hflight_pool2,
              ?_, ?_, ?_, ?_, ?_, hinv.not_stuck⟩
            · simpa using hsnds2
            · rw [show (p : PoolEntry U) :: ps = poolSet st.pool ⟨s, idx, r⟩ from hpp.symm]
              exact hkeys1
            · rw [show (p : PoolEntry U) :: ps = poolSet st.pool ⟨s, idx, r⟩ from hpp.symm]
              exact hpool_rs1
            · intro e₀ he₀
              have he₀' : e₀ ∈ poolSet st.pool ⟨s, idx, r⟩ := by
                rw [hpp]
                exact he₀
              rcases hpool_flight1 e₀ he₀' with h1 | ⟨h2, _⟩
              swap
              · cases h2
              by_cases hii : e₀.idx = (racePick σ p ps).idx
              · have hpair : (e₀.idx, e₀.slot) =
                    ((racePick σ p ps).idx, (racePick σ p ps).slot) :=
                  List.inj_on_of_nodup_map hfl_nodup1 h1 hw_fl (by simpa using hii)
                have hslots_eq : e₀.slot = (racePick σ p ps).slot := congrArg Prod.snd hpair
                have he_eq : e₀ = racePick σ p ps :=
                  pool_eq_of_slot_eq hkeys1 he₀' hw_mem hslots_eq
                right
                refine ⟨by simp [hslots_eq], u, ?_⟩
                rw [he_eq, hres]
              · left
                exact List.mem_filter.mpr ⟨h1, bne_iff_ne.mpr hii⟩
            · show flightOf ((st.evs ++ [Ev.pull idx, Ev.submit idx s]) ++ [_, _]) = _
              rw [append_two (st.evs ++ [Ev.pull idx, Ev.submit idx s]), flightOf_snoc,
                flightOf_snoc, hreplay1]
              rfl
            · show pullCount ((st.evs ++ [Ev.pull idx, Ev.submit idx s]) ++ [_, _]) = _
              rw [append_two (st.evs ++ [Ev.pull idx, Ev.submit idx s]), pullCount_snoc,
                pullCount_snoc, yldCount_snoc, yldCount_snoc]
              simp only [pullTick, yldTick]
              have h1 := hcounts1
              have h2 := hfl2_len
              omega
            · show ∀ q, starts q ((st.evs ++ [Ev.pull idx, Ev.submit idx s]) ++ [_, _]) → EvOK N q
              rw [append_two (st.evs ++ [Ev.pull idx, Ev.submit idx s])]
              exact evok_snoc_yld (evok_snoc_complete hevok1)
            · show (submitIdxs ((st.evs ++ [Ev.pull idx, Ev.submit idx s]) ++ [_, _])).Nodup
              rw [append_two (st.evs ++ [Ev.pull idx, Ev.submit idx s]), submitIdxs_snoc,
                submitIdxs_snoc]
              simpa [submitTick] using hsubnodup1
            · show ∀ i ∈ submitIdxs ((st.evs ++ [Ev.pull idx, Ev.submit idx s]) ++ [_, _]),
                i < idx + 1
              rw [append_two (st.evs ++ [Ev.pull idx, Ev.submit idx s]), submitIdxs_snoc,
                submitIdxs_snoc]
              simpa [submitTick] using hsublt1
          refine ⟨(ih (idx + 1) _ hk' hinv2).1, ?_⟩
          rintro (⟨e₀, he₀, msg, hmsg⟩ | ⟨x, hx, msg, hmsg⟩)
          · have hne : e₀.slot ≠ s := by
              intro hc
              rcases hinv.pool_flight e₀ he₀ with h1 | ⟨_, u', hu⟩
              · exact hs_not_flight (List.mem_map.mpr ⟨(e₀.idx, e₀.slot), h1, hc⟩)
              · rw [hmsg] at hu
                exact Except.noConfusion hu
            have hmem2 : e₀ ∈ p :: ps := by
              rw [← hpp]
              exact mem_poolSet_of_ne he₀ hne
            exact (ih (idx + 1) _ hk' hinv2).2 (Or.inl ⟨e₀, hmem2, msg, hmsg⟩)
          · rcases List.mem_cons.mp hx with rfl | hx'
            · have hmem2 : (⟨s, idx, x⟩ : PoolEntry U) ∈ p :: ps := by
                rw [← hpp]
                exact self_mem_poolSet _ _
              exact (ih (idx + 1) _ hk' hinv2).2 (Or.inl ⟨⟨s, idx, x⟩, hmem2, msg, hmsg⟩)
            · exact (ih (idx + 1) _ hk' hinv2).2 (Or.inr ⟨x, hx', msg, hmsg⟩)
      · -- free slots remain: submit without yielding and continue
        rw [concurrentLoop_cons_go σ r rest idx st hsl]
        have hinv1 : LoopInv N rs (idx + 1)
            { st with slots := s' :: more,
                      pool := poolSet st.pool ⟨s, idx, r⟩,
                      flight := st.flight ++ [(idx, s)],
                      evs := st.evs ++ [Ev.pull idx, Ev.submit idx s] } :=
          ⟨by simp, hperm1, hfl_lt1, hfl_nodup1, hkeys1, hpool_rs1, hpool_flight1,
            hflight_pool1, hreplay1, hcounts1, hevok1, hsubnodup1, hsublt1, hinv.not_stuck⟩
        refine ⟨(ih (idx + 1) _ hk' hinv1).1, ?_⟩
        rintro (⟨e₀, he₀, msg, hmsg⟩ | ⟨x, hx, msg, hmsg⟩)
        · have hne : e₀.slot ≠ s := by
            intro hc
            rcases hinv.pool_flight e₀ he₀ with h1 | ⟨_, u', hu⟩
            · exact hs_not_flight (List.mem_map.mpr ⟨(e₀.idx, e₀.slot), h1, hc⟩)
            · rw [hmsg] at hu
              exact Except.noConfusion hu
          exact (ih (idx + 1) _ hk' hinv1).2
            (Or.inl ⟨e₀, mem_poolSet_of_ne he₀ hne, msg, hmsg⟩)
        · rcases List.mem_cons.mp hx with rfl | hx'
          · exact (ih (idx + 1) _ hk' hinv1).2
              (Or.inl ⟨⟨s, idx, x⟩, self_mem_poolSet _ _, msg, hmsg⟩)
          · exact (ih (idx + 1) _ hk' hinv1).2 (Or.inr ⟨x, hx', msg, hmsg⟩)

theorem concurrentRun_post (U : Type) (σ : Sched U) (N : Nat) (rs : List (Except String U))
    (hN : 1 ≤ N) :
    RunPost N rs (concurrentRun σ (N : Int) rs).1 (concurrentRun σ (N : Int) rs).2 ∧
    ((∃ x ∈ rs, ∃ msg, x = Except.error msg) →
      ((concurrentRun σ (N : Int) rs).2).isSome = true) := by
  have hrun : concurrentRun σ (N : Int) rs =
      concurrentLoop σ rs 0 { emptyExecSt U with slots := (List.range N).reverse } := by
    unfold concurrentRun
    rw [if_neg (by omega)]
    simp only [Int.toNat_natCast]
    rw [if_neg (by simp; omega)]
  have hevok0 : ∀ p, starts p ([] : List Ev) → EvOK N p := by
    intro p hp
    obtain ⟨t, ht⟩ := hp
    have hp0 : p = [] := (List.append_eq_nil.mp ht).1
    subst hp0
    refine ⟨by simp [flightOf], by simp [flightOf], ?_, ?_⟩
    · intro q j hq
      have hlength := congrArg List.length hq
      simp at hlength
    · simp only [pullCount, yldCount, List.filter_nil, List.length_nil]
      omega
  have hinv0 : LoopInv N rs 0 { emptyExecSt U with slots := (List.range N).reverse } := by
    refine ⟨?_, ?_, ?_, ?_, ?_, ?_, ?_, ?_, ?_, ?_, ?_, ?_, ?_, ?_⟩
    · show (List.range N).reverse ≠ []
      simp only [ne_eq, List.reverse_eq_nil_iff, List.range_eq_nil]
      omega
    · show ((List.range N).reverse ++ (([] : List (Nat × Nat)).map _)).Perm (List.range N)
      simp only [List.map_nil, List.append_nil]
      exact List.reverse_perm _
    · intro q hq
      cases hq
    · simp [emptyExecSt]
    · simp [emptyExecSt]
    · intro e he
      cases he
    · intro e he
      cases he
    · intro q hq
      cases hq
    · rfl
    · rfl
    · exact hevok0
    · simp [emptyExecSt, submitIdxs]
    · intro i hi
      simp [emptyExecSt, submitIdxs] at hi
    · rfl
  have hk0 : ∀ k, rs.get? k = rs.get? (0 + k) := fun k => by rw [Nat.zero_add]
  have hmain := concurrentLoop_post σ N rs rs 0
    { emptyExecSt U with slots := (List.range N).reverse } hk0 hinv0
  rw [hrun]
  exact ⟨hmain.1, fun hex => hmain.2 (Or.inr hex)⟩

/-- C3: the executor keeps its concurrency bound: over every schedule, at
every instant of the run (every initial segment of the event log), at most
N submitted operations are concurrently unobserved-complete, no slot id is
bound to two in-flight operations at the same time, and an input is only
pulled at instants where fewer than N operations are in flight — the
executor stalls in a race instead of pulling whenever all N slots are
occupied. -/
theorem concurrency_bound_holds (U : Type) (σ : Sched U) (N : Nat)
    (rs : List (Except String U)) (hN : 1 ≤ N) :
    ∀ p, starts p (concurrentRun σ (N : Int) rs).1.evs →
      (flightOf p).length ≤ N ∧
      ((flightOf p).map (fun q => q.2)).Nodup ∧
      (∀ q j, p = q ++ [Ev.pull j] → (flightOf q).length < N) := by
  intro p hp
  obtain ⟨h1, h2, h3, _⟩ := (concurrentRun_post U σ N rs hN).1.evok p hp
  exact ⟨h1, h2, h3⟩

/-- Witness for concurrency_bound_holds: the instant just after the first
submission in the run with N = 1 over one successful operation. -/
theorem concurrency_bound_holds_witness :
    (flightOf [Ev.pull 0, Ev.submit 0 0]).length ≤ 1 ∧
    ((flightOf [Ev.pull 0, Ev.submit 0 0]).map (fun q => q.2)).Nodup ∧
    (∀ q j, [Ev.pull 0, Ev.submit 0 0] = q ++ [Ev.pull j] → (flightOf q).length < 1) :=
  concurrency_bound_holds Nat (fun _ => 0) 1 [Except.ok 5] (by decide)
    [Ev.pull 0, Ev.submit 0 0]
    ⟨[Ev.complete 0 0, Ev.yld, Ev.complete 0 0, Ev.yld], rfl⟩

/-- C9: the collection-driven executor honors downstream backpressure once
saturated: at every instant of the run, the number of promises taken from
the input collection never exceeds the number of results the consumer has
pulled plus N, for every schedule. -/
theorem collection_backpressure (U : Type) (σ : Sched U) (N : Nat)
    (rs : List (Except String U)) (hN : 1 ≤ N) :
    ∀ p, starts p (concurrentIterator σ rs (N : Int)).1.evs →
      pullCount p ≤ yldCount p + N := by
  intro p hp
  exact ((concurrentRun_post U σ N rs hN).1.evok p hp).2.2.2

/-- Witness for collection_backpressure at the saturation instant of the
run with N = 1 over one promise. -/
theorem collection_backpressure_witness :
    pullCount [Ev.pull 0, Ev.submit 0 0] ≤ yldCount [Ev.pull 0, Ev.submit 0 0] + 1 :=
  collection_backpressure Nat (fun _ => 0) 1 [Except.ok 5] (by decide)
    [Ev.pull 0, Ev.submit 0 0]
    ⟨[Ev.complete 0 0, Ev.yld, Ev.complete 0 0, Ev.yld], rfl⟩

/-- C5: a rejection propagates to the consumer exactly at the race through
which the rejected operation completes — whenever the executor fails, its
event log ends with the completion of a submitted operation whose settled
outcome is that very rejection, immediately followed by the failure, in
place of the yield of that result.  No input is ever submitted twice (no
retry), and the sibling operations still in flight at that point all remain
in the pool: the executor removes or cancels none of them.  Conversely a
rejection among the operations is never swallowed: if any input's operation
rejects, the run fails. -/
theorem rejection_propagates (U : Type) (σ : Sched U) (N : Nat)
    (rs : List (Except String U)) (hN : 1 ≤ N) :
    (∀ st e, concurrentRun σ (N : Int) rs = (st, some e) →
        (∃ j s q, st.evs = q ++ [Ev.complete j s, Ev.fail] ∧
          rs.get? j = some (Except.error e)) ∧
        (submitIdxs st.evs).Nodup ∧
        (∀ q ∈ st.flight, ∃ w ∈ st.pool, w.idx = q.1 ∧ w.slot = q.2)) ∧
    ((∃ x ∈ rs, ∃ msg, x = Except.error msg) →
      ((concurrentRun σ (N : Int) rs).2).isSome = true) := by
  have hpost := concurrentRun_post U σ N rs hN
  constructor
  · intro st e heq
    have h1 : (concurrentRun σ (N : Int) rs).1 = st := by rw [heq]
    have h2 : (concurrentRun σ (N : Int) rs).2 = some e := by rw [heq]
    refine ⟨?_, ?_, ?_⟩
    · have hs := hpost.1.err_shape e h2
      rw [h1] at hs
      exact hs
    · have hs := hpost.1.sub_nodup
      rw [h1] at hs
      exact hs
    · have hs := hpost.1.flight_pool
      rw [h1] at hs
      exact hs
  · exact hpost.2

/-- Witness for rejection_propagates: one rejecting operation under N = 1
makes the run fail. -/
theorem rejection_propagates_witness :
    ((concurrentRun (fun _ => 0) ((1 : Nat) : Int)
      ([Except.error "boom"] : List (Except String Nat))).2).isSome = true :=
  (rejection_propagates Nat (fun _ => 0) 1 [Except.error "boom"] (by decide)).2
    ⟨Except.error "boom", by simp, "boom", rfl⟩

end FluentAsync
